import Mathlib

/-!
Verification of the modular binding layer of the firestore and database
packages: the path-resolution logic of the modular doc and collection
functions, the updateDoc argument dispatch, the query-constraint composition
contract, the onDisconnect remove callback validation, and the parent
semantics of database references.  JavaScript strings are modelled as lists
of characters and the wrapped native objects as explicit delegate functions,
so that every call a binding makes on the wrapped object is observable in
the model.
-/

namespace RNFirebase

/-- A JavaScript string, modelled as its list of characters. -/
abbrev JStr := List Char

/-- Strips one leading slash character, if present: the first alternative of
the regex used by doc and collection, which anchors at the start of the
string and therefore fires at most once. -/
def stripLeadSlash : JStr → JStr
  | [] => []
  | c :: rest => if c = '/' then rest else c :: rest

/-- Strips one trailing slash character, if present: the second alternative
of the regex, which anchors at the end of the string and therefore fires at
most once. -/
def stripTrailSlash (s : JStr) : JStr :=
  if s.getLast? = some '/' then s.dropLast else s

/-- Embeds the segment-trimming expression of doc and collection in
packages/firestore/lib/modular/index.js: a global replace of a regex that
removes one anchored leading slash and one anchored trailing slash, leaving
every interior character untouched. -/
def trimSegment (s : JStr) : JStr :=
  stripTrailSlash (stripLeadSlash s)

/-- Embeds the JavaScript Array.prototype.join with a one-slash separator. -/
def joinSlash : List JStr → JStr
  | [] => []
  | [s] => s
  | s :: rest => s ++ '/' :: joinSlash rest

/-- Embeds the path computation shared by doc and collection in
packages/firestore/lib/modular/index.js: when the rest parameter is
non-empty (the rest parameter is always an array, so the guard reduces to a
length test), the base path is extended with a slash followed by the trimmed
segments joined by slashes; otherwise the base path is returned untouched. -/
def joinedPath (path : JStr) (pathSegments : List JStr) : JStr :=
  if pathSegments.length ≠ 0 then
    path ++ '/' :: joinSlash (pathSegments.map trimSegment)
  else
    path

/-- The wrapped parent object (a Firestore instance or reference from the
compatibility layer), reduced to the two methods the modular layer calls on
it.  The result type is abstract so a theorem may choose delegates that
record the path they receive. -/
structure Parent (α : Type) where
  doc : JStr → α
  collection : JStr → α

/-- Embeds the modular doc function of
packages/firestore/lib/modular/index.js, lines 35 to 41. -/
def doc {α : Type} (parent : Parent α) (path : JStr) (pathSegments : List JStr) : α :=
  parent.doc (joinedPath path pathSegments)

/-- Embeds the modular collection function of
packages/firestore/lib/modular/index.js, lines 49 to 55. -/
def collection {α : Type} (parent : Parent α) (path : JStr) (pathSegments : List JStr) : α :=
  parent.collection (joinedPath path pathSegments)

/-- Formalisation of the words of claim C1, for comparison with the code:
every supplied fragment, the base path included, has one leading and one
trailing slash stripped, and the fragments are then joined with one-slash
separators in call order. -/
def claimedJoinC1 (path : JStr) (pathSegments : List JStr) : JStr :=
  joinSlash ((path :: pathSegments).map trimSegment)

/-- A JavaScript value, restricted to the shapes the claims need.  Numbers
are modelled as integers. -/
inductive JSVal where
  | undefined
  | null
  | bool (b : Bool)
  | num (n : Int)
  | str (s : JStr)
  | func (n : Nat)
  | obj (n : Nat)
  | arr (elems : List JSVal)

/-- JavaScript falsiness: the values on which the logical-not operator of
the source yields true.  The falsy number is 0 and the falsy string is the
empty string. -/
def jsFalsy : JSVal → Bool
  | .undefined => true
  | .null => true
  | .bool b => !b
  | .num n => n == 0
  | .str s => s.isEmpty
  | .func _ => false
  | .obj _ => false
  | .arr _ => false

/-- Embeds the Array.isArray test. -/
def isArray : JSVal → Bool
  | .arr _ => true
  | _ => false

/-- The wrapped document reference, reduced to the update method updateDoc
calls on it; the method receives the full argument list that the spread in
the source produces. -/
structure DocRef (α : Type) where
  update : List JSVal → α

/-- Embeds updateDoc of packages/firestore/lib/modular/index.js, lines 83 to
93.  The rest parameter moreFieldsAndValues always arrives as an array, so
the truthiness and Array.isArray tests of the source are applied to that
array value. -/
def updateDoc {α : Type} (reference : DocRef α) (fieldOrUpdateData : JSVal)
    (value : JSVal) (moreFieldsAndValues : List JSVal) : α :=
  if jsFalsy value then
    reference.update [fieldOrUpdateData]
  else if jsFalsy (JSVal.arr moreFieldsAndValues) || !isArray (JSVal.arr moreFieldsAndValues) then
    reference.update [fieldOrUpdateData, value]
  else
    reference.update (fieldOrUpdateData :: value :: moreFieldsAndValues)

/-- One operation recorded against the wrapped query object.  The wrapped
SDK query is opaque to the binding layer, so it is modelled freely as the
list of operations that have been applied to it, oldest first. -/
inductive QueryOp where
  | whereOp (fieldPath : JStr) (opStr : JStr) (value : JSVal)
  | orderByOp (fieldPath : JStr) (direction : JStr)
  | limitOp (n : Int)
  | limitToLastOp (n : Int)
  | startAtOp (fieldValues : List JSVal)
  | startAfterOp (fieldValues : List JSVal)
  | endAtOp (fieldValues : List JSVal)
  | endBeforeOp (fieldValues : List JSVal)

/-- A wrapped query value: a base query with its applied operations. -/
abbrev QueryVal := List QueryOp

/-- Modelled from the spec: the runtime QueryConstraint class of the modular
firestore package is not under src; only its type declarations in
packages/firestore/lib/modular/query.d.ts are.  Per the spec and those
declarations, a constraint carries a discriminant type string fixed at
construction and an application method that takes a query and returns a
copy with the constraint applied. -/
structure QueryConstraintM where
  type : String
  _apply : QueryVal → QueryVal

/-- Modelled from the spec: the where constructor returns a constraint
tagged where whose application records a field filter on the query. -/
def whereC (fieldPath opStr : JStr) (value : JSVal) : QueryConstraintM :=
  ⟨"where", fun q => q ++ [QueryOp.whereOp fieldPath opStr value]⟩

/-- Modelled from the spec: the orderBy constructor. -/
def orderByC (fieldPath direction : JStr) : QueryConstraintM :=
  ⟨"orderBy", fun q => q ++ [QueryOp.orderByOp fieldPath direction]⟩

/-- Modelled from the spec: the limit constructor. -/
def limitC (n : Int) : QueryConstraintM :=
  ⟨"limit", fun q => q ++ [QueryOp.limitOp n]⟩

/-- Modelled from the spec: the limitToLast constructor. -/
def limitToLastC (n : Int) : QueryConstraintM :=
  ⟨"limitToLast", fun q => q ++ [QueryOp.limitToLastOp n]⟩

/-- Modelled from the spec: the startAt constructor. -/
def startAtC (fieldValues : List JSVal) : QueryConstraintM :=
  ⟨"startAt", fun q => q ++ [QueryOp.startAtOp fieldValues]⟩

/-- Modelled from the spec: the startAfter constructor. -/
def startAfterC (fieldValues : List JSVal) : QueryConstraintM :=
  ⟨"startAfter", fun q => q ++ [QueryOp.startAfterOp fieldValues]⟩

/-- Modelled from the spec: the endAt constructor. -/
def endAtC (fieldValues : List JSVal) : QueryConstraintM :=
  ⟨"endAt", fun q => q ++ [QueryOp.endAtOp fieldValues]⟩

/-- Modelled from the spec: the endBefore constructor. -/
def endBeforeC (fieldValues : List JSVal) : QueryConstraintM :=
  ⟨"endBefore", fun q => q ++ [QueryOp.endBeforeOp fieldValues]⟩

/-- Modelled from the spec: the modular query function folds the constraint
list onto the base query left to right through each constraint application
method (spec section 4.3); its implementation is not under src, only its
declarations in packages/firestore/lib/modular/query.d.ts. -/
def query (base : QueryVal) (constraints : List QueryConstraintM) : QueryVal :=
  constraints.foldl (fun q c => c._apply q) base

/-- The constraint whose application records the given operation: each of
the eight constructor functions applied to the payload of the operation. -/
def constraintOfOp : QueryOp → QueryConstraintM
  | .whereOp f o v => whereC f o v
  | .orderByOp f d => orderByC f d
  | .limitOp n => limitC n
  | .limitToLastOp n => limitToLastC n
  | .startAtOp vs => startAtC vs
  | .startAfterOp vs => startAfterC vs
  | .endAtOp vs => endAtC vs
  | .endBeforeOp vs => endBeforeC vs

/-- Tests whether a value is the undefined value, which models an omitted
optional argument. -/
def isUndefined : JSVal → Bool
  | .undefined => true
  | _ => false

/-- Tests whether a value is callable. -/
def isCallable : JSVal → Bool
  | .func _ => true
  | _ => false

/-- The apostrophe character. -/
def quoteChar : Char := Char.ofNat 39

/-- The argument-error message required for a bad onComplete callback. -/
def onCompleteErrMsg : JStr :=
  quoteChar :: "onComplete".data ++ quoteChar :: " must be a function if provided".data

/-- One string occurs as a contiguous part of another. -/
def containsStr (needle hay : JStr) : Prop :=
  ∃ l r, hay = l ++ needle ++ r

/-- Modelled from the spec: the OnDisconnect remove implementation is not
under src, only its end-to-end tests are.  Per the spec it raises an
argument error synchronously iff onComplete is provided (not undefined) and
not callable, with the required message; errors are modelled with Except. -/
def removeOnDisconnect (onComplete : JSVal) : Except JStr Unit :=
  if !isUndefined onComplete && !isCallable onComplete then
    Except.error onCompleteErrMsg
  else
    Except.ok ()

/-- Splits a path string at slash characters. -/
def splitSlash : JStr → List JStr
  | [] => [[]]
  | '/' :: rest => [] :: splitSlash rest
  | c :: rest =>
    match splitSlash rest with
    | [] => [[c]]
    | g :: gs => (c :: g) :: gs

/-- The segments of a database path: the nonempty parts between slashes. -/
def pathSegmentsOf (p : JStr) : List JStr :=
  (splitSlash p).filter (fun s => !s.isEmpty)

/-- Modelled from the spec: the database Reference implementation is not
under src, only its end-to-end tests are.  A reference is identified by its
list of path segments; the spec requires the namespaced and modular
surfaces to expose identical reference semantics, so one model serves
both. -/
structure DBRef where
  segments : List JStr
  deriving DecidableEq

/-- The reference denoted by a path string. -/
def refOfPath (p : JStr) : DBRef :=
  ⟨pathSegmentsOf p⟩

/-- Modelled from the spec: parent is null for the root reference and for a
single-segment path, and otherwise the reference one segment up (spec
section 8, property 1, and the parent end-to-end tests). -/
def refParent (r : DBRef) : Option DBRef :=
  if r.segments.length ≤ 1 then none else some ⟨r.segments.dropLast⟩

/-- Modelled from the spec: the key of a reference is its last path
segment. -/
def refKey (r : DBRef) : Option JStr :=
  r.segments.getLast?

/-- A segment wrapped in one extra leading and one extra trailing slash is
trimmed back to exactly its core, whatever slashes the core contains. -/
theorem trimSegment_wrap (core : JStr) : trimSegment ('/' :: (core ++ ['/'])) = core := by
  simp [trimSegment, stripLeadSlash, stripTrailSlash, List.getLast?_concat]

/-- A segment without any slash is left untouched by the trimming. -/
theorem trimSegment_of_no_slash (s : JStr) (h : '/' ∉ s) : trimSegment s = s := by
  have hlast : ¬ s.getLast? = some '/' := by
    intro hlast
    have hm : '/' ∈ s.getLast? := by rw [hlast]; exact rfl
    obtain ⟨hne, hx⟩ := List.mem_getLast?_eq_getLast hm
    have hmem := List.getLast_mem hne
    rw [← hx] at hmem
    exact h hmem
  unfold trimSegment stripLeadSlash
  match s, h, hlast with
  | [], _, _ => rfl
  | c :: rest, h, hlast =>
    have hc : ¬ c = '/' := by
      intro hc; exact h (hc ▸ List.mem_cons_self c rest)
    simp [hc, stripTrailSlash, hlast]

/-- The joined path of segments wrapped in one extra slash on each side is
the untouched base path, a slash, and the cores joined by slashes. -/
theorem joinedPath_wrapped (path : JStr) (cores : List JStr) (h : cores ≠ []) :
    joinedPath path (cores.map (fun c => '/' :: (c ++ ['/']))) =
      path ++ '/' :: joinSlash cores := by
  have hmap : (cores.map (fun c => '/' :: (c ++ ['/']))).map trimSegment = cores := by
    rw [List.map_map]
    have hid : ∀ c ∈ cores, (trimSegment ∘ fun c => '/' :: (c ++ ['/'])) c = id c := by
      intro c _
      simp [Function.comp, trimSegment_wrap]
    rw [List.map_congr_left hid, List.map_id]
  have hlen : (cores.map (fun c => '/' :: (c ++ ['/']))).length ≠ 0 := by
    simpa [List.length_map] using fun hl => h (List.length_eq_zero.mp hl)
  unfold joinedPath
  rw [if_pos hlen, hmap]

/-- Every string occurs inside itself. -/
theorem containsStr_refl (s : JStr) : containsStr s s :=
  ⟨[], [], by simp⟩

/-- Claim C1, counterexample: the claim states that the base path fragment
is also trimmed of its slashes, but doc passes the base path verbatim; on
base path slash a slash with segment b the code delegates the path
slash a slash slash b, while the claimed join is a slash b. -/
theorem doc_base_path_not_trimmed_cex :
    doc (Parent.mk (id : JStr → JStr) id) "/a/".data ["b".data] ≠
      claimedJoinC1 "/a/".data ["b".data] := by decide

/-- Claim C1, amended: with at least one extra segment, doc and collection
strip exactly one leading and one trailing slash from each variadic segment
only, preserving interior slashes, leave the base path fragment verbatim,
join everything with one-slash separators in call order, and delegate the
result to the wrapped doc and collection methods. -/
theorem doc_collection_trim_variadic_only {α : Type} (p : Parent α) (path : JStr)
    (cores : List JStr) (h : cores ≠ []) :
    doc p path (cores.map (fun c => '/' :: (c ++ ['/']))) =
        p.doc (path ++ '/' :: joinSlash cores) ∧
      collection p path (cores.map (fun c => '/' :: (c ++ ['/']))) =
        p.collection (path ++ '/' :: joinSlash cores) := by
  unfold doc collection
  rw [joinedPath_wrapped path cores h]
  exact ⟨rfl, rfl⟩

theorem doc_collection_trim_variadic_only_witness :
    (["b".data] : List JStr) ≠ [] ∧
      doc (Parent.mk (id : JStr → JStr) id) "a".data
          (["b".data].map (fun c => '/' :: (c ++ ['/']))) =
        Parent.doc (Parent.mk (id : JStr → JStr) id) ("a".data ++ '/' :: joinSlash ["b".data]) :=
  ⟨by decide,
   (doc_collection_trim_variadic_only (Parent.mk (id : JStr → JStr) id) "a".data
     ["b".data] (by decide)).1⟩

/-- Claim C2, counterexample: the claim states that an empty joined path is
rejected before delegation and that the wrapped doc method is never invoked
on an empty path, but doc performs no validation: with a delegate that
returns the received path, the empty path reaches the wrapped method and
its value is returned. -/
theorem doc_empty_path_delegates_cex :
    doc (Parent.mk (some : JStr → Option JStr) some) [] [] = some [] := by decide

/-- Claim C2, amended: doc and collection perform no emptiness validation
and raise nothing themselves; whenever the joined path is empty it is
passed as-is to the wrapped doc and collection methods, whose result is
returned unchanged. -/
theorem doc_collection_delegate_empty_path {α : Type} (p : Parent α) (path : JStr)
    (segs : List JStr) (h : joinedPath path segs = []) :
    doc p path segs = p.doc [] ∧ collection p path segs = p.collection [] := by
  unfold doc collection
  rw [h]
  exact ⟨rfl, rfl⟩

theorem doc_collection_delegate_empty_path_witness :
    joinedPath [] [] = [] ∧
      doc (Parent.mk (some : JStr → Option JStr) some) [] [] =
        Parent.doc (Parent.mk (some : JStr → Option JStr) some) [] :=
  ⟨by decide,
   (doc_collection_delegate_empty_path (Parent.mk (some : JStr → Option JStr) some)
     [] [] (by decide)).1⟩

/-- Claim C3: for every falsy value argument, updateDoc invokes the wrapped
update with the single argument fieldOrUpdateData, which is the same call it
makes when the value is omitted (the undefined value with an empty rest
list). -/
theorem updateDoc_falsy_value_single_arg {α : Type} (r : DocRef α) (f v : JSVal)
    (more : List JSVal) (h : jsFalsy v = true) :
    updateDoc r f v more = r.update [f] ∧
      updateDoc r f JSVal.undefined [] = r.update [f] := by
  refine ⟨?_, rfl⟩
  unfold updateDoc
  rw [if_pos h]

theorem updateDoc_falsy_value_single_arg_witness :
    jsFalsy (JSVal.num 0) = true ∧
      updateDoc (DocRef.mk (id : List JSVal → List JSVal)) (JSVal.str []) (JSVal.num 0)
          [JSVal.bool true] = [JSVal.str []] :=
  ⟨by decide,
   (updateDoc_falsy_value_single_arg (DocRef.mk (id : List JSVal → List JSVal))
     (JSVal.str []) (JSVal.num 0) [JSVal.bool true] (by decide)).1⟩

/-- Claim C4: supplying a slash-free segment list across variadic arguments
composes the same delegated path as supplying it pre-joined with one-slash
separators. -/
theorem doc_variadic_eq_prejoined {α : Type} (p : Parent α) (first : JStr)
    (rest : List JStr) (h : ∀ s ∈ first :: rest, '/' ∉ s) :
    doc p first rest = doc p (joinSlash (first :: rest)) [] := by
  unfold doc
  congr 1
  cases rest with
  | nil => simp [joinedPath, joinSlash]
  | cons r rs =>
    have hmap : List.map trimSegment (r :: rs) = r :: rs := by
      have hid : ∀ s ∈ r :: rs, trimSegment s = id s := fun s hs =>
        trimSegment_of_no_slash s (h s (List.mem_cons_of_mem first hs))
      rw [List.map_congr_left hid, List.map_id]
    simp [joinedPath, joinSlash, hmap]

theorem doc_variadic_eq_prejoined_witness :
    (∀ s ∈ ["a".data, "b".data, "c".data], '/' ∉ s) ∧
      doc (Parent.mk (id : JStr → JStr) id) "a".data ["b".data, "c".data] =
        doc (Parent.mk (id : JStr → JStr) id)
          (joinSlash ["a".data, "b".data, "c".data]) [] :=
  ⟨by decide,
   doc_variadic_eq_prejoined (Parent.mk (id : JStr → JStr) id) "a".data
     ["b".data, "c".data] (by decide)⟩

/-- Claim C5: query folds the constraint list onto the base query left to
right, and for constraints built by the eight constructors the effect of
each is applied exactly once, strictly in call order, extending the base
query without altering it. -/
theorem query_folds_constraints_in_order :
    (∀ (base : QueryVal) (cs : List QueryConstraintM),
        query base cs = cs.foldl (fun q c => c._apply q) base) ∧
      ∀ (base : QueryVal) (ops : List QueryOp),
        query base (ops.map constraintOfOp) = base ++ ops := by
  constructor
  · intro base cs
    rfl
  · intro base ops
    induction ops generalizing base with
    | nil => simp [query]
    | cons op rest ih =>
      have hstep : (constraintOfOp op)._apply base = base ++ [op] := by
        cases op <;> rfl
      show List.foldl (fun q c => c._apply q) base
          (constraintOfOp op :: rest.map constraintOfOp) = base ++ op :: rest
      rw [List.foldl_cons, hstep]
      have hrest := ih (base ++ [op])
      unfold query at hrest
      rw [hrest, List.append_assoc]
      rfl

/-- Claim C6: with zero extra segments, doc and collection pass the base
path to the wrapped doc and collection methods completely unmodified. -/
theorem doc_collection_zero_segments_id {α : Type} (p : Parent α) (path : JStr) :
    doc p path [] = p.doc path ∧ collection p path [] = p.collection path := by
  constructor <;> simp [doc, collection, joinedPath]

/-- Claim C7: each of the eight constraint constructors fixes the type tag
of its result at construction to the matching discriminant, and every
constructed constraint carries one of the eight recognized discriminants;
constraints are immutable values, so no later operation alters the tag. -/
theorem constraint_type_fixed_at_construction :
    (∀ f o v, (whereC f o v).type = "where") ∧
      (∀ f d, (orderByC f d).type = "orderBy") ∧
      (∀ n, (limitC n).type = "limit") ∧
      (∀ n, (limitToLastC n).type = "limitToLast") ∧
      (∀ vs, (startAtC vs).type = "startAt") ∧
      (∀ vs, (startAfterC vs).type = "startAfter") ∧
      (∀ vs, (endAtC vs).type = "endAt") ∧
      (∀ vs, (endBeforeC vs).type = "endBefore") ∧
      ∀ op, (constraintOfOp op).type ∈
        (["where", "orderBy", "limit", "limitToLast", "startAt", "startAfter",
          "endAt", "endBefore"] : List String) := by
  refine ⟨fun _ _ _ => rfl, fun _ _ => rfl, fun _ => rfl, fun _ => rfl, fun _ => rfl,
    fun _ => rfl, fun _ => rfl, fun _ => rfl, ?_⟩
  intro op
  cases op <;>
    simp [constraintOfOp, whereC, orderByC, limitC, limitToLastC, startAtC, startAfterC,
      endAtC, endBeforeC]

/-- Claim C8: remove raises synchronously iff onComplete is provided and not
callable, the raised message contains the required text, and an omitted or
callable onComplete raises nothing. -/
theorem removeOnDisconnect_onComplete_validation (v : JSVal) :
    ((∃ msg, removeOnDisconnect v = Except.error msg ∧ containsStr onCompleteErrMsg msg) ↔
        isUndefined v = false ∧ isCallable v = false) ∧
      (removeOnDisconnect v = Except.ok () ↔
        (isUndefined v = true ∨ isCallable v = true)) := by
  cases v <;>
    simp [removeOnDisconnect, isUndefined, isCallable, containsStr_refl]

/-- Claim C9: for a reference with at least two segments, parent is the
reference one segment up and its key is the second-to-last segment; for the
root and for a single-segment path the parent is null; instantiated on the
paths of the end-to-end tests. -/
theorem refParent_second_to_last_key :
    (∀ (init : List JStr) (a b : JStr),
        refParent ⟨init ++ [a, b]⟩ = some ⟨init ++ [a]⟩ ∧
          refKey ⟨init ++ [a]⟩ = some a) ∧
      refParent ⟨[]⟩ = none ∧
      (∀ s : JStr, refParent ⟨[s]⟩ = none) ∧
      refParent (refOfPath ("/foo/bar/baz".data)) = some ⟨["foo".data, "bar".data]⟩ ∧
      refKey ⟨["foo".data, "bar".data]⟩ = some ("bar".data) ∧
      refParent (refOfPath ("/foo".data)) = none := by
  refine ⟨?_, by decide, fun s => rfl, by decide, by decide, by decide⟩
  intro init a b
  constructor
  · unfold refParent
    have hlen : ¬ (init ++ [a, b]).length ≤ 1 := by
      simp only [List.length_append, List.length_cons, List.length_nil]
      omega
    rw [if_neg hlen]
    have hdl : (init ++ [a, b]).dropLast = init ++ [a] := by
      have h2 : init ++ [a, b] = (init ++ [a]) ++ [b] := by simp
      rw [h2]
      simp
    rw [hdl]
  · unfold refKey
    simp [List.getLast?_concat]

/-- Claim C10: the branch of updateDoc guarded by the falsiness or
non-arrayness of the rest parameter is unreachable, because the rest
parameter is always an array, which is truthy; for every truthy value the
spread form is invoked. -/
theorem updateDoc_two_arg_branch_unreachable :
    (∀ more : List JSVal,
        (jsFalsy (JSVal.arr more) || !isArray (JSVal.arr more)) = false) ∧
      ∀ (α : Type) (r : DocRef α) (f v : JSVal) (more : List JSVal),
        jsFalsy v = false →
          updateDoc r f v more = r.update (f :: v :: more) := by
  constructor
  · intro more
    rfl
  · intro α r f v more h
    unfold updateDoc
    rw [h]
    simp [jsFalsy, isArray]

theorem updateDoc_two_arg_branch_unreachable_witness :
    jsFalsy (JSVal.num 1) = false ∧
      updateDoc (DocRef.mk (id : List JSVal → List JSVal)) (JSVal.str []) (JSVal.num 1) [] =
        [JSVal.str [], JSVal.num 1] :=
  ⟨by decide,
   updateDoc_two_arg_branch_unreachable.2 (List JSVal)
     (DocRef.mk (id : List JSVal → List JSVal)) (JSVal.str []) (JSVal.num 1) [] (by decide)⟩

end RNFirebase
